import Mathlib

/-!
Verification development for the file-system explorer (`src/explorer.py`).

The program is shallowly embedded below.  Filesystem effects (`os.lstat`,
`os.path.isfile`, `os.path.isdir`, `os.path.islink`, `os.listdir`) are
modelled by an oracle structure `FS` that records the snapshot the program
would observe; `os.walk` is modelled by a directory tree `FSTree` together
with a fuel-indexed traversal that reproduces `os.walk`'s top-down semantics
including the effect of in-place mutation of the `dirs` list on descent.
Python string primitives used by the code (`str.replace`, `str.count`,
`str.startswith`, `str.endswith`, `str.lower`, the `in` operator,
`os.path.join`, `os.path.basename`) are embedded as executable functions on
`List Char` / `String` mirroring their Python semantics.
-/

/-! ## Python string primitives -/

/-- Python `s.count("/")` for a single-character needle: number of occurrences. -/
def countSepL (l : List Char) : Nat := l.count '/'

/-- Python `s.startswith(p)`. -/
def pyStartsWith (s p : String) : Bool := p.data.isPrefixOf s.data

/-- Python `s.endswith(p)`. -/
def pyEndsWith (s p : String) : Bool := p.data.isSuffixOf s.data

/-- Boolean contiguous-sublist test on character lists. -/
def isSubL (needle : List Char) : List Char → Bool
  | [] => needle.isEmpty
  | c :: rest => needle.isPrefixOf (c :: rest) || isSubL needle rest

/-- Python `needle in haystack` (contiguous substring test). -/
def pyIn (needle haystack : String) : Bool := isSubL needle.data haystack.data

/-- Python `s.lower()` (ASCII case folding, which is all the program relies on). -/
def pyLower (s : String) : String := String.mk (s.data.map Char.toLower)

/-- Fuel-indexed core of Python `s.replace(pat, "")`: greedy left-to-right
non-overlapping deletion of occurrences of `pat`.  The fuel is an upper bound
on the number of steps; `pyReplaceDel` supplies enough fuel for the scan to
complete, and every step consumes at least one character of `s`. -/
def pyReplaceL (pat : List Char) : Nat → List Char → List Char
  | _, [] => []
  | 0, s => s
  | fuel + 1, c :: rest =>
    if pat ≠ [] ∧ pat.isPrefixOf (c :: rest) then
      pyReplaceL pat fuel ((c :: rest).drop pat.length)
    else
      c :: pyReplaceL pat fuel rest

/-- Python `s.replace(pat, "")`. -/
def pyReplaceDel (s pat : String) : String :=
  String.mk (pyReplaceL pat.data s.data.length s.data)

/-- The `level` expression of `recursive_explore` (explorer.py line 147):
`root.replace(path, "").count(os.sep)` with `os.sep = "/"`. -/
def pyLevel (root path : String) : Nat :=
  countSepL (pyReplaceL path.data root.data.length root.data)

/-- Helper for `basename`: characters after the last `'/'` (Python
`p[p.rfind("/") + 1 :]`). -/
def afterLastSep (l : List Char) : List Char :=
  l.foldl (fun acc c => if c = '/' then [] else acc ++ [c]) []

/-- POSIX `os.path.basename`. -/
def basename (p : String) : String := String.mk (afterLastSep p.data)

/-- POSIX `os.path.join(a, b)` for two arguments. -/
def pathJoin (a b : String) : String :=
  if pyStartsWith b "/" then b
  else if a = "" ∨ pyEndsWith a "/" then a ++ b
  else a ++ "/" ++ b

/-! ## Data model -/

/-- Result of a successful `os.lstat` call, restricted to the two fields the
program reads.  `modified` is stored as the ISO-format string the program
derives from `st_mtime` (`datetime.fromtimestamp(...).isoformat()`), since the
code only ever renders and lexicographically compares that string. -/
structure Stat where
  st_size : Nat
  mtimeIso : String
deriving DecidableEq, Repr

/-- Errors `os.listdir` can raise in `explore_directory` (explorer.py
lines 103-110). -/
inductive ListErr where
  | fileNotFound
  | permissionError
deriving DecidableEq, Repr

/-- Snapshot oracle for the filesystem calls the program makes.  `lstat`
returning `none` models `FileNotFoundError` / `PermissionError` during
metadata collection; `isfile` / `isdir` / `islink` are the (link-following,
link-following, link-testing) `os.path` predicates, which the source computes
independently of `lstat`. -/
structure FS where
  listdir : String → Except ListErr (List String)
  lstat : String → Option Stat
  isfile : String → Bool
  isdir : String → Bool
  islink : String → Bool

/-- The metadata dictionary built by `format_metadata` (explorer.py
lines 23-31): seven fields, no `level` yet. -/
structure Meta where
  name : String
  path : String
  is_file : Bool
  is_dir : Bool
  is_link : Bool
  size_bytes : Nat
  modified : String
deriving DecidableEq, Repr

/-- A scan-result record: the `format_metadata` dictionary after the scan has
added the eighth key `level` (`meta["level"] = ...`). -/
structure Entry where
  name : String
  path : String
  is_file : Bool
  is_dir : Bool
  is_link : Bool
  size_bytes : Nat
  modified : String
  level : Nat
deriving DecidableEq, Repr

/-- Attaching a `level` to a metadata dictionary (`meta["level"] = lvl`). -/
def Meta.withLevel (m : Meta) (lvl : Nat) : Entry :=
  ⟨m.name, m.path, m.is_file, m.is_dir, m.is_link, m.size_bytes, m.modified, lvl⟩

/-- The `format_metadata` function (explorer.py lines 10-31): `None` when
`os.lstat` fails, otherwise the seven-field dictionary. -/
def format_metadata (fs : FS) (path : String) : Option Meta :=
  match fs.lstat path with
  | none => none
  | some stats =>
    some
      { name := basename path
        path := path
        is_file := fs.isfile path
        is_dir := fs.isdir path
        is_link := fs.islink path
        size_bytes := stats.st_size
        modified := stats.mtimeIso }

/-! ## Filters (explorer.py lines 37-58) -/

/-- Python truthiness of an optional string argument (`None` and `""` are
falsy). -/
def optStrTruthy : Option String → Bool
  | none => false
  | some s => if s = "" then false else true

/-- Python truthiness of an optional integer argument (`None` and `0` are
falsy). -/
def optIntTruthy : Option Int → Bool
  | none => false
  | some n => if n = 0 then false else true

/-- The `apply_filters` function (explorer.py lines 37-58). -/
def apply_filters (entry : Meta) (ext : Option String) (min_size : Option Int)
    (name : Option String) : Bool :=
  if entry.is_dir then true
  else if optStrTruthy ext ∧ ¬ pyEndsWith entry.name (ext.getD "") then false
  else if optIntTruthy min_size ∧ (entry.size_bytes : Int) < (min_size.getD 0) then false
  else if optStrTruthy name ∧ ¬ pyIn (pyLower (name.getD "")) (pyLower entry.name) then false
  else true

/-! ## Sorting (explorer.py lines 64-87) -/

/-- The `sort_entries` function (explorer.py lines 64-87).  Python's
`list.sort(key=k)` is a stable sort ascending by key, embedded here as the
stable `List.mergeSort` with the corresponding boolean `≤` on keys. -/
def sort_entries (entries : List Entry) (sort_key : Option String) : List Entry :=
  if ¬ optStrTruthy sort_key then entries
  else
    let dirs := entries.filter fun e => e.is_dir
    let files := entries.filter fun e => e.is_file
    let sortedFiles :=
      if sort_key = some "name" then
        files.mergeSort fun a b => decide (pyLower a.name ≤ pyLower b.name)
      else if sort_key = some "size" then
        files.mergeSort fun a b => decide (a.size_bytes ≤ b.size_bytes)
      else if sort_key = some "modified" then
        files.mergeSort fun a b => decide (a.modified ≤ b.modified)
      else files
    dirs ++ sortedFiles

/-! ## Output classification (explorer.py lines 184-211) -/

/-- The type label chosen by `print_table` (explorer.py line 190):
`"FILE" if entry["is_file"] else "DIR" if entry["is_dir"] else "LINK"`. -/
def tableType (e : Entry) : String :=
  if e.is_file then "FILE" else if e.is_dir then "DIR" else "LINK"

/-- The type marker chosen by `print_tree` (explorer.py lines 204-209). -/
def treeSymbol (e : Entry) : String :=
  if e.is_dir then "[DIR]" else if e.is_file then "[FILE]" else "[LINK]"

/-! ## Non-recursive scan (explorer.py lines 93-128) -/

/-- Body of the `for item in items` loop of `explore_directory` (explorer.py
lines 120-126): metadata extraction, filtering, level tagging. -/
def processItem (fs : FS) (path : String) (ext : Option String)
    (min_size : Option Int) (name : Option String) (item : String) : Option Entry :=
  match format_metadata fs (pathJoin path item) with
  | none => none
  | some meta =>
    if apply_filters meta ext min_size name then some (meta.withLevel 0) else none

/-- The `explore_directory` function (explorer.py lines 93-128).  The first
component of the result collects the messages the function prints (error
reports and the truncation warning), the second is the returned list. -/
def explore_directory (fs : FS) (path : String) (show_hidden : Bool)
    (max_entries : Nat) (ext : Option String) (min_size : Option Int)
    (name : Option String) : List String × List Entry :=
  match fs.listdir path with
  | Except.error ListErr.fileNotFound => (["❌ Invalid path: Directory does not exist."], [])
  | Except.error ListErr.permissionError => (["❌ Permission denied."], [])
  | Except.ok items0 =>
    let items1 := if show_hidden then items0
      else items0.filter fun item => !pyStartsWith item "."
    let warns := if items1.length > max_entries then
        ["⚠️  Directory has " ++ toString items1.length ++ " items. Showing first "
          ++ toString max_entries ++ "."]
      else []
    let items := if items1.length > max_entries then items1.take max_entries else items1
    (warns, items.filterMap (processItem fs path ext min_size name))

/-! ## Recursive scan (explorer.py lines 134-178)

The walk is modelled over a snapshot of the directory tree.  `os.walk` is
top-down: it yields `(root, dirs, files)` for a directory, lets the loop body
run (which may mutate `dirs` in place), and then descends exactly into the
subdirectories left in `dirs`.  When the body executes `continue` before the
mutation (the depth check at lines 149-150), the walk descends into all
subdirectories of that root. -/

/-! Snapshot of a directory tree: named subdirectories and file names, in the
enumeration order `os.walk` reports them.  (`FSChildren` is an inlined list of
named subtrees; the mutual formulation keeps all recursion structural.) -/
-- FSTree and FSChildren
mutual
inductive FSTree where
  | node (subdirs : FSChildren) (files : List String)
deriving Repr
inductive FSChildren where
  | nil
  | cons (dname : String) (tree : FSTree) (rest : FSChildren)
deriving Repr
end

/-- View of an `FSChildren` as an ordinary list of named subtrees. -/
def FSChildren.toList : FSChildren → List (String × FSTree)
  | FSChildren.nil => []
  | FSChildren.cons n t rest => (n, t) :: rest.toList

/-! Height of a directory tree (used as walk fuel: a walk from the root
finishes within `height` levels of descent). -/
mutual
def FSTree.height : FSTree → Nat
  | FSTree.node subdirs _ => FSChildren.heightC subdirs + 1
def FSChildren.heightC : FSChildren → Nat
  | FSChildren.nil => 0
  | FSChildren.cons _ t rest => Nat.max (FSTree.height t) (FSChildren.heightC rest)
end

/-- Everything the loop body of `recursive_explore` produces for one visited
directory: the computed `level`, printed warnings, entries appended to
`results`, the subdirectory list after in-place mutation (which `os.walk`
will descend into), and the file list actually iterated. -/
structure VisitOut where
  level : Nat
  warns : List String
  entries : List Entry
  keptDirs : List (String × FSTree)
  keptFiles : List String

/-- Lines 152-176 of the loop body of `recursive_explore`: everything after
the depth check, i.e. hidden suppression, the per-directory cap, the
directory's own entry, and the file entries. -/
def visitBody (fs : FS) (show_hidden : Bool) (max_entries : Nat)
    (ext : Option String) (min_size : Option Int) (name : Option String)
    (level : Nat) (root : String)
    (subdirs : List (String × FSTree)) (files : List String) : VisitOut :=
  let dirs1 := if show_hidden then subdirs
    else subdirs.filter fun p => !pyStartsWith p.1 "."
  let files1 := if show_hidden then files
    else files.filter fun f => !pyStartsWith f "."
  let tooBig := dirs1.length + files1.length > max_entries
  let warns := if tooBig then
      ["⚠️  " ++ root ++ " has " ++ toString (dirs1.length + files1.length)
        ++ " items. Showing first " ++ toString max_entries ++ "."]
    else []
  let dirs2 := if tooBig then dirs1.take max_entries else dirs1
  let files2 := if tooBig then files1.take max_entries else files1
  let dirEntries := match format_metadata fs root with
    | none => []
    | some m => [m.withLevel level]
  let fileEntries := files2.filterMap fun fname =>
    match format_metadata fs (pathJoin root fname) with
    | none => none
    | some m =>
      if apply_filters m ext min_size name then some (m.withLevel (level + 1))
      else none
  ⟨level, warns, dirEntries ++ fileEntries, dirs2, files2⟩

/-- Loop body of `recursive_explore` (explorer.py lines 146-176) for a single
`(root, dirs, files)` triple yielded by `os.walk`. -/
def visitDir (fs : FS) (show_hidden : Bool) (max_entries : Nat)
    (depth : Option Nat) (ext : Option String) (min_size : Option Int)
    (name : Option String) (path root : String)
    (subdirs : List (String × FSTree)) (files : List String) : VisitOut :=
  let level := pyLevel root path
  let skip : Bool := match depth with
    | some d => decide (level > d)
    | none => false
  if skip then
    -- `continue`: nothing is printed or appended, `dirs` is left unmutated,
    -- so the walk descends into every subdirectory.
    ⟨level, [], [], subdirs, files⟩
  else
    visitBody fs show_hidden max_entries ext min_size name level root subdirs files

/-- Fuel-indexed `os.walk` traversal running the `recursive_explore` loop
body at every yielded directory.  The fuel only bounds the recursion depth;
`recursive_explore` supplies fuel exceeding the tree height, so the walk
always runs to completion there. -/
def walkAux (fs : FS) (show_hidden : Bool) (max_entries : Nat)
    (depth : Option Nat) (ext : Option String) (min_size : Option Int)
    (name : Option String) (path : String) :
    Nat → String → FSTree → List String × List Entry
  | 0, _, _ => ([], [])
  | fuel + 1, root, FSTree.node subdirs files =>
    let v := visitDir fs show_hidden max_entries depth ext min_size name path root
      subdirs.toList files
    let rest := v.keptDirs.map fun p =>
      walkAux fs show_hidden max_entries depth ext min_size name path fuel
        (pathJoin root p.1) p.2
    (v.warns ++ (rest.map Prod.fst).flatten, v.entries ++ (rest.map Prod.snd).flatten)

/-- The `recursive_explore` function (explorer.py lines 134-178), applied to
a snapshot `t` of the tree rooted at `path`.  First component: printed
warnings; second: the returned `results` list. -/
def recursive_explore (fs : FS) (path : String) (show_hidden : Bool)
    (max_entries : Nat) (depth : Option Nat) (ext : Option String)
    (min_size : Option Int) (name : Option String) (t : FSTree) :
    List String × List Entry :=
  walkAux fs show_hidden max_entries depth ext min_size name path t.height path t

/-- A name as reported by a real directory listing: nonempty and without a
path separator. -/
def goodName (s : String) : Prop := s ≠ "" ∧ '/' ∉ s.data

instance (s : String) : Decidable (goodName s) := by
  unfold goodName
  infer_instance

/-- Well-formed snapshot: every name `os.walk` reports is a `goodName`
(true of real directory listings). -/
inductive WF : FSTree → Prop where
  | node {subdirs : FSChildren} {files : List String}
      (hn : ∀ p ∈ subdirs.toList, goodName p.1)
      (hw : ∀ p ∈ subdirs.toList, WF p.2)
      (hf : ∀ f ∈ files, goodName f) :
      WF (FSTree.node subdirs files)


/-! ## Concrete fixtures used by witnesses and counterexamples -/

/-- An entry with `is_link` true whose link target resolves to a file
(`os.path.isfile` follows links, so `is_file` is true as well). -/
def eLinkToFile : Entry := ⟨"lnk", "r/lnk", true, false, true, 3, "t", 0⟩

/-- An entry with `is_link` true and a dangling target: neither file nor
directory. -/
def brokenLinkEntry : Entry := ⟨"x", "r/x", false, false, true, 0, "t", 0⟩

/-- A plain file entry fixture. -/
def fileEntryA : Entry := ⟨"b.txt", "p/b.txt", true, false, false, 1, "t", 0⟩

/-- A second plain file entry fixture. -/
def fileEntryB : Entry := ⟨"a.txt", "p/a.txt", true, false, false, 2, "t", 0⟩

/-- A directory metadata fixture. -/
def mDirMeta : Meta := ⟨"d", "p/d", false, true, false, 0, "t"⟩

/-- Oracle on which every path stats fine and is a directory. -/
def fsAllDir : FS :=
  { listdir := fun _ => Except.ok []
    lstat := fun _ => some ⟨0, "t"⟩
    isfile := fun _ => false
    isdir := fun _ => true
    islink := fun _ => false }

/-- Oracle with a three-file listing on which every path stats as a file. -/
def fsAllFile : FS :=
  { listdir := fun _ => Except.ok ["a.txt", "b.txt", "c.txt"]
    lstat := fun _ => some ⟨10, "t"⟩
    isfile := fun _ => true
    isdir := fun _ => false
    islink := fun _ => false }

/-- Oracle whose root listing raises `FileNotFoundError`. -/
def fsMissing : FS :=
  { listdir := fun _ => Except.error ListErr.fileNotFound
    lstat := fun _ => none
    isfile := fun _ => false
    isdir := fun _ => false
    islink := fun _ => false }

/-- An empty directory node. -/
def fsLeaf : FSTree := FSTree.node FSChildren.nil []

/-- One subdirectory `d` and one file `f`. -/
def treeC3 : FSTree := FSTree.node (FSChildren.cons "d" fsLeaf FSChildren.nil) ["f"]

/-- Subdirectory chain `a/b` below the root. -/
def treeC4 : FSTree :=
  FSTree.node (FSChildren.cons "a"
    (FSTree.node (FSChildren.cons "b" fsLeaf FSChildren.nil) []) FSChildren.nil) []

/-- One subdirectory `s` below the root. -/
def treeC5 : FSTree := FSTree.node (FSChildren.cons "s" fsLeaf FSChildren.nil) []

/-- Subdirectory chain `q/a/b/.h` below the root. -/
def treeC8 : FSTree :=
  FSTree.node (FSChildren.cons "q"
    (FSTree.node (FSChildren.cons "a"
      (FSTree.node (FSChildren.cons "b"
        (FSTree.node (FSChildren.cons ".h" fsLeaf FSChildren.nil) []) FSChildren.nil) [])
      FSChildren.nil) []) FSChildren.nil) []

/-- One subdirectory `sub` and one file `a.txt`. -/
def treeW : FSTree := FSTree.node (FSChildren.cons "sub" fsLeaf FSChildren.nil) ["a.txt"]

/-- No trailing separator. -/
def noTrailingSep (s : String) : Prop := s.data.getLast? ≠ some '/'


/-! ## Helper lemmas on the embedded string primitives -/

/-- Every needle occurs in a haystack starting from the empty needle. -/
theorem isSubL_nil : ∀ l : List Char, isSubL [] l = true
  | [] => rfl
  | c :: rest => by simp [isSubL, List.isPrefixOf]

/-- Deleting occurrences of a separator-free pattern never changes the
separator count. -/
theorem countSepL_pyReplaceL (pat : List Char) (hpat : '/' ∉ pat) :
    ∀ (fuel : Nat) (s : List Char), countSepL (pyReplaceL pat fuel s) = countSepL s := by
  intro fuel
  induction fuel with
  | zero =>
    intro s
    cases s <;> rfl
  | succ fuel ih =>
    intro s
    cases s with
    | nil => rfl
    | cons c rest =>
      unfold pyReplaceL
      by_cases hpre : pat ≠ [] ∧ pat.isPrefixOf (c :: rest)
      · rw [if_pos hpre]
        obtain ⟨t, ht⟩ : ∃ t, pat ++ t = c :: rest := by
          have := hpre.2
          rw [List.isPrefixOf_iff_prefix] at this
          exact this
        rw [ih]
        have hdrop : (c :: rest).drop pat.length = t := by
          rw [← ht, List.drop_left]
        rw [hdrop]
        have : countSepL (c :: rest) = countSepL pat + countSepL t := by
          rw [← ht]
          unfold countSepL
          rw [List.count_append]
        rw [this]
        have hz : countSepL pat = 0 := by
          unfold countSepL
          exact List.count_eq_zero.mpr hpat
        omega
      · rw [if_neg hpre]
        unfold countSepL at *
        simp only [List.count_cons, ih rest]

/-- For a separator-free pattern, the computed `level` is just the separator
count of `root`. -/
theorem pyLevel_eq_countSepL (root path : String) (hpath : '/' ∉ path.data) :
    pyLevel root path = countSepL root.data :=
  countSepL_pyReplaceL path.data hpath root.data.length root.data

theorem stringExt {a b : String} (h : a.data = b.data) : a = b := by
  cases a
  cases b
  simp_all

theorem data_mk (l : List Char) : (String.mk l).data = l := rfl

theorem data_append (a b : String) : (a ++ b).data = a.data ++ b.data := by
  cases a
  cases b
  rfl

/-- Folding the `basename` step over a separator-free block appends it to the
accumulator. -/
theorem afterLastSep_no_sep : ∀ (l : List Char), '/' ∉ l → ∀ acc : List Char,
    l.foldl (fun acc c => if c = '/' then [] else acc ++ [c]) acc = acc ++ l := by
  intro l
  induction l with
  | nil => intro _ acc; simp
  | cons c rest ih =>
    intro hmem acc
    have hc : ¬ (c = '/') := fun h => hmem (h ▸ List.mem_cons_self c rest)
    simp only [List.foldl_cons]
    rw [if_neg hc, ih (fun h => hmem (List.mem_cons_of_mem c h))]
    simp

/-- Folding the `basename` step across a block ending in a separator resets
the accumulator. -/
theorem afterLastSep_append_sep (l m : List Char) (acc : List Char) :
    (l ++ '/' :: m).foldl (fun acc c => if c = '/' then [] else acc ++ [c]) acc =
      m.foldl (fun acc c => if c = '/' then [] else acc ++ [c]) [] := by
  rw [List.foldl_append]
  simp only [List.foldl_cons, if_true]

/-- Basename of a join with a separator-free last component. -/
theorem basename_pathJoin (r f : String) (hf : '/' ∉ f.data) :
    basename (pathJoin r f) = f := by
  have hstart : pyStartsWith f "/" = false := by
    unfold pyStartsWith
    cases hd : f.data with
    | nil => rfl
    | cons c rest =>
      by_cases hc : ('/' : Char) = c
      · exfalso
        apply hf
        rw [hd, ← hc]
        exact List.mem_cons_self _ _
      · show (('/' : Char) :: ([] : List Char)).isPrefixOf (c :: rest) = false
        simp [List.isPrefixOf, hc]
  have hbase : ∀ l : List Char, basename (String.mk (l ++ '/' :: f.data)) = f := by
    intro l
    apply stringExt
    unfold basename afterLastSep
    rw [data_mk, afterLastSep_append_sep]
    rw [afterLastSep_no_sep f.data hf []]
    rfl
  unfold pathJoin
  rw [hstart]
  simp only [Bool.false_eq_true, if_false]
  by_cases hr : r = "" ∨ pyEndsWith r "/"
  · rw [if_pos hr]
    rcases hr with hr | hr
    · subst hr
      apply stringExt
      unfold basename afterLastSep
      rw [data_append]
      show (List.foldl _ [] ([] ++ f.data)) = f.data
      rw [List.nil_append]
      rw [afterLastSep_no_sep f.data hf []]
      rfl
    · unfold pyEndsWith at hr
      rw [List.isSuffixOf_iff_suffix] at hr
      obtain ⟨init, hinit⟩ := hr
      apply stringExt
      unfold basename afterLastSep
      rw [data_append]
      rw [← hinit]
      show (List.foldl _ [] (init ++ ('/' :: ([] : List Char)) ++ f.data)) = f.data
      rw [List.append_assoc]
      show (List.foldl _ [] (init ++ ('/' :: f.data))) = f.data
      rw [afterLastSep_append_sep init f.data []]
      rw [afterLastSep_no_sep f.data hf []]
      rfl
  · rw [if_neg hr]
    have : (r ++ "/" ++ f).data = r.data ++ '/' :: f.data := by
      rw [data_append, data_append, List.append_assoc]
      rfl
    calc basename (r ++ "/" ++ f) = basename (String.mk (r.data ++ '/' :: f.data)) := by
          congr 1
          apply stringExt
          rw [this, data_mk]
      _ = f := hbase r.data

/-- A separator-free string does not start with the separator. -/
theorem pyStartsWith_sep_false (f : String) (hf : '/' ∉ f.data) :
    pyStartsWith f "/" = false := by
  unfold pyStartsWith
  cases hd : f.data with
  | nil => rfl
  | cons c rest =>
    by_cases hc : ('/' : Char) = c
    · exact absurd (hd ▸ (hc ▸ List.mem_cons_self _ _)) hf
    · show (('/' : Char) :: ([] : List Char)).isPrefixOf (c :: rest) = false
      simp [List.isPrefixOf, hc]

theorem pyEndsWith_sep_false (r : String) (hr : noTrailingSep r) :
    pyEndsWith r "/" = false := by
  unfold pyEndsWith
  by_contra h
  rw [Bool.not_eq_false] at h
  rw [List.isSuffixOf_iff_suffix] at h
  obtain ⟨init, hinit⟩ := h
  apply hr
  rw [← hinit]
  show (init ++ ['/']).getLast? = some '/'
  exact List.getLast?_concat init

/-- The join as performed inside the walk for a well-formed name and a root
with no trailing separator. -/
theorem pathJoin_eq (r n : String) (hr : r ≠ "") (hrl : noTrailingSep r)
    (hn : '/' ∉ n.data) : pathJoin r n = r ++ "/" ++ n := by
  unfold pathJoin
  rw [pyStartsWith_sep_false n hn]
  simp only [Bool.false_eq_true, if_false]
  rw [pyEndsWith_sep_false r hrl]
  simp only [Bool.false_eq_true, or_false, if_neg hr]

theorem data_append_sep (r n : String) : (r ++ "/" ++ n).data = r.data ++ '/' :: n.data := by
  rw [data_append, data_append, List.append_assoc]
  rfl

theorem noTrailingSep_join (r n : String) (hne : n ≠ "") (hn : '/' ∉ n.data) :
    noTrailingSep (r ++ "/" ++ n) := by
  unfold noTrailingSep
  rw [data_append_sep]
  have hnd : n.data ≠ [] := by
    intro h
    apply hne
    apply stringExt
    rw [h]
  have hsplit : r.data ++ '/' :: n.data = (r.data ++ ['/']) ++ n.data :=
    (List.append_assoc r.data ['/'] n.data).symm
  rw [hsplit, List.getLast?_append_of_ne_nil _ hnd]
  intro h
  exact hn (List.mem_of_getLast?_eq_some h)

/-- A separator-free string has no trailing separator. -/
theorem noTrailingSep_of_sepFree (s : String) (hs : '/' ∉ s.data) : noTrailingSep s := by
  intro h
  exact hs (List.mem_of_getLast?_eq_some h)

/-! ## Walk lemmas -/

theorem visitDir_skip (fs : FS) (hid : Bool) (M : Nat) (d : Nat)
    (ext : Option String) (mi : Option Int) (nm : Option String) (path root : String)
    (subdirs : List (String × FSTree)) (files : List String)
    (h : d < pyLevel root path) :
    visitDir fs hid M (some d) ext mi nm path root subdirs files =
      ⟨pyLevel root path, [], [], subdirs, files⟩ := by
  unfold visitDir
  have hskip : decide (pyLevel root path > d) = true := by
    simp only [decide_eq_true_eq]
    omega
  simp only [hskip, if_true]

/-- Walking below a directory whose separator count already exceeds the depth
bound produces nothing at all, provided the scan path and all names are
separator-free. -/
theorem walkAux_high_eq_nil (fs : FS) (hid : Bool) (M : Nat) (d : Nat)
    (ext : Option String) (mi : Option Int) (nm : Option String) (path : String)
    (hpath : '/' ∉ path.data) :
    ∀ (fuel : Nat) (root : String) (t : FSTree), WF t → d < countSepL root.data →
      walkAux fs hid M (some d) ext mi nm path fuel root t = ([], []) := by
  intro fuel
  induction fuel with
  | zero =>
    intro root t _ _
    cases t
    rfl
  | succ fuel ih =>
    intro root t hwf hd
    cases t with
    | node subdirs files =>
      unfold walkAux
      have hlev : pyLevel root path = countSepL root.data := pyLevel_eq_countSepL root path hpath
      rw [visitDir_skip fs hid M d ext mi nm path root subdirs.toList files (hlev ▸ hd)]
      simp only
      cases hwf with
      | node hn hw hf =>
        have hrec : ∀ p ∈ subdirs.toList,
            walkAux fs hid M (some d) ext mi nm path fuel (pathJoin root p.1) p.2 = ([], []) := by
          intro p hp
          apply ih
          · exact hw p hp
          · -- countSepL of the join is at least that of root
            have hpn : '/' ∉ p.1.data := (hn p hp).2
            unfold pathJoin
            rw [pyStartsWith_sep_false p.1 hpn]
            simp only [Bool.false_eq_true, if_false]
            by_cases hcase : root = "" ∨ pyEndsWith root "/" = true
            · rw [if_pos hcase]
              rw [data_append]
              unfold countSepL at *
              rw [List.count_append]
              omega
            · rw [if_neg hcase]
              rw [data_append_sep]
              unfold countSepL at *
              rw [List.count_append, List.count_cons]
              omega
        have hmap : subdirs.toList.map (fun p => walkAux fs hid M (some d) ext mi nm path fuel
              (pathJoin root p.1) p.2) =
            subdirs.toList.map fun _ => (([] : List String), ([] : List Entry)) := by
          apply List.map_congr_left
          intro p hp
          exact hrec p hp
        rw [hmap]
        simp [List.map_map, List.flatten_eq_nil_iff]

/-- Characterization of the entries a single directory visit emits. -/
theorem visitBody_mem_entries (fs : FS) (hid : Bool) (M : Nat)
    (ext : Option String) (mi : Option Int) (nm : Option String)
    (level : Nat) (root : String)
    (subdirs : List (String × FSTree)) (files : List String) :
    ∀ e ∈ (visitBody fs hid M ext mi nm level root subdirs files).entries,
      (∃ m, format_metadata fs root = some m ∧ e = m.withLevel level) ∨
      (∃ fname m, fname ∈ (if hid then files else files.filter fun f => !pyStartsWith f ".") ∧
        format_metadata fs (pathJoin root fname) = some m ∧
        apply_filters m ext mi nm = true ∧ e = m.withLevel (level + 1)) := by
  intro e he
  unfold visitBody at he
  simp only [List.mem_append, List.mem_filterMap] at he
  rcases he with hdirE | ⟨fname, hmem, hfe⟩
  · rcases hm : format_metadata fs root with _ | m
    · rw [hm] at hdirE
      simp at hdirE
    · rw [hm] at hdirE
      simp only [List.mem_singleton] at hdirE
      exact Or.inl ⟨m, rfl, hdirE⟩
  · right
    rcases hm : format_metadata fs (pathJoin root fname) with _ | m
    · rw [hm] at hfe
      simp at hfe
    · rw [hm] at hfe
      by_cases hf : apply_filters m ext mi nm
      · simp only [hf, if_true, Option.some.injEq] at hfe
        refine ⟨fname, m, ?_, hm, hf, hfe.symm⟩
        by_cases hbig : (if hid then subdirs else subdirs.filter fun p => !pyStartsWith p.1 ".").length +
            (if hid then files else files.filter fun f => !pyStartsWith f ".").length > M
        · rw [if_pos hbig] at hmem
          exact List.mem_of_mem_take hmem
        · rw [if_neg hbig] at hmem
          exact hmem
      · simp [hf] at hfe

/-- The subdirectories a visit descends into are among the (possibly
hidden-filtered) reported ones. -/
theorem visitBody_keptDirs_mem (fs : FS) (hid : Bool) (M : Nat)
    (ext : Option String) (mi : Option Int) (nm : Option String)
    (level : Nat) (root : String)
    (subdirs : List (String × FSTree)) (files : List String) :
    ∀ p ∈ (visitBody fs hid M ext mi nm level root subdirs files).keptDirs,
      p ∈ (if hid then subdirs else subdirs.filter fun q => !pyStartsWith q.1 ".") := by
  intro p hp
  unfold visitBody at hp
  simp only at hp
  by_cases hbig : (if hid then subdirs else subdirs.filter fun q => !pyStartsWith q.1 ".").length +
      (if hid then files else files.filter fun f => !pyStartsWith f ".").length > M
  · rw [if_pos hbig] at hp
    exact List.mem_of_mem_take hp
  · rw [if_neg hbig] at hp
    exact hp

/-- Dropping the hidden filter: membership in the filtered list implies
membership in the raw list. -/
theorem mem_of_mem_hiddenFilter {α : Type} (hid : Bool) (l : List α) (pr : α → Bool) :
    ∀ x ∈ (if hid then l else l.filter pr), x ∈ l := by
  intro x hx
  by_cases h : hid
  · rw [if_pos h] at hx
    exact hx
  · rw [if_neg h] at hx
    exact List.mem_of_mem_filter hx

/-- With no depth limit the visit never skips. -/
theorem visitDir_none_eq (fs : FS) (hid : Bool) (M : Nat)
    (ext : Option String) (mi : Option Int) (nm : Option String) (path root : String)
    (subdirs : List (String × FSTree)) (files : List String) :
    visitDir fs hid M none ext mi nm path root subdirs files =
      visitBody fs hid M ext mi nm (pyLevel root path) root subdirs files := rfl

/-- Entries of a visit, skip branch included. -/
theorem visitDir_mem_entries (fs : FS) (hid : Bool) (M : Nat) (depth : Option Nat)
    (ext : Option String) (mi : Option Int) (nm : Option String) (path root : String)
    (subdirs : List (String × FSTree)) (files : List String) :
    ∀ e ∈ (visitDir fs hid M depth ext mi nm path root subdirs files).entries,
      (∃ m, format_metadata fs root = some m ∧ e = m.withLevel (pyLevel root path)) ∨
      (∃ fname m, fname ∈ (if hid then files else files.filter fun f => !pyStartsWith f ".") ∧
        format_metadata fs (pathJoin root fname) = some m ∧
        apply_filters m ext mi nm = true ∧ e = m.withLevel (pyLevel root path + 1)) := by
  intro e he
  unfold visitDir at he
  rcases depth with _ | d
  · simp only [Bool.false_eq_true, if_false] at he
    exact visitBody_mem_entries fs hid M ext mi nm _ root subdirs files e he
  · rcases hsk : decide (pyLevel root path > d) with _ | _
    · simp only [hsk, Bool.false_eq_true, if_false] at he
      exact visitBody_mem_entries fs hid M ext mi nm _ root subdirs files e he
    · simp only [hsk, if_true] at he
      simp at he

/-- Subdirectories descended into are among the reported ones. -/
theorem visitDir_keptDirs_mem (fs : FS) (hid : Bool) (M : Nat) (depth : Option Nat)
    (ext : Option String) (mi : Option Int) (nm : Option String) (path root : String)
    (subdirs : List (String × FSTree)) (files : List String) :
    ∀ p ∈ (visitDir fs hid M depth ext mi nm path root subdirs files).keptDirs,
      p ∈ subdirs := by
  intro p hp
  unfold visitDir at hp
  rcases depth with _ | d
  · simp only [Bool.false_eq_true, if_false] at hp
    exact mem_of_mem_hiddenFilter hid subdirs _ p
      (visitBody_keptDirs_mem fs hid M ext mi nm _ root subdirs files p hp)
  · rcases hsk : decide (pyLevel root path > d) with _ | _
    · simp only [hsk, Bool.false_eq_true, if_false] at hp
      exact mem_of_mem_hiddenFilter hid subdirs _ p
        (visitBody_keptDirs_mem fs hid M ext mi nm _ root subdirs files p hp)
    · simp only [hsk, if_true] at hp
      exact hp

/-- Decomposition of `walkAux` membership: an emitted entry comes from the
root visit or from the walk below one of the descended-into subdirectories. -/
theorem walkAux_mem (fs : FS) (hid : Bool) (M : Nat) (depth : Option Nat)
    (ext : Option String) (mi : Option Int) (nm : Option String) (path : String)
    (fuel : Nat) (root : String) (subdirs : FSChildren) (files : List String) :
    ∀ e ∈ (walkAux fs hid M depth ext mi nm path (fuel + 1) root
        (FSTree.node subdirs files)).2,
      e ∈ (visitDir fs hid M depth ext mi nm path root subdirs.toList files).entries ∨
      ∃ p ∈ (visitDir fs hid M depth ext mi nm path root subdirs.toList files).keptDirs,
        e ∈ (walkAux fs hid M depth ext mi nm path fuel (pathJoin root p.1) p.2).2 := by
  intro e he
  unfold walkAux at he
  simp only [List.mem_append, List.mem_flatten, List.mem_map] at he
  rcases he with h | ⟨l, ⟨pr, ⟨p, hp, hpr⟩, hl⟩, hel⟩
  · exact Or.inl h
  · right
    refine ⟨p, hp, ?_⟩
    rw [← hpr] at hl
    rw [← hl] at hel
    exact hel

theorem countSepL_path_zero (path : String) (hsep : '/' ∉ path.data) :
    countSepL path.data = 0 := by
  unfold countSepL
  exact List.count_eq_zero.mpr hsep

/-- For a separator-free scan path, every emitted entry's `level` equals the
number of separators in its path beyond the scan path prefix. -/
theorem walkAux_level_inv (fs : FS) (hid : Bool) (M : Nat) (depth : Option Nat)
    (ext : Option String) (mi : Option Int) (nm : Option String) (path : String)
    (hpath : path ≠ "") (hsep : '/' ∉ path.data) :
    ∀ (fuel : Nat) (root : String) (t : FSTree) (r0 : List Char),
      WF t → root.data = path.data ++ r0 → noTrailingSep root →
      ∀ e ∈ (walkAux fs hid M depth ext mi nm path fuel root t).2,
        ∃ re, e.path.data = path.data ++ re ∧ e.level = countSepL re := by
  intro fuel
  induction fuel with
  | zero =>
    intro root t r0 _ _ _ e he
    cases t
    simp [walkAux] at he
  | succ fuel ih =>
    intro root t r0 hwf hr0 hnts e he
    cases t with
    | node subdirs files =>
      have hrne : root ≠ "" := by
        intro h
        rw [h] at hr0
        have hlen := congrArg List.length hr0
        rw [List.length_append] at hlen
        have h0 : ("" : String).data.length = 0 := rfl
        rw [h0] at hlen
        have hp0 : path.data.length = 0 := by omega
        exact hpath (stringExt (by rw [List.eq_nil_of_length_eq_zero hp0]))
      have hlev : pyLevel root path = countSepL r0 := by
        rw [pyLevel_eq_countSepL root path hsep, hr0]
        unfold countSepL
        rw [List.count_append]
        have := countSepL_path_zero path hsep
        unfold countSepL at this
        omega
      cases hwf with
      | node hn hw hf =>
        rcases walkAux_mem fs hid M depth ext mi nm path fuel root subdirs files e he with
          hvis | ⟨p, hkept, hrec⟩
        · rcases visitDir_mem_entries fs hid M depth ext mi nm path root subdirs.toList files
              e hvis with ⟨m, hm, hem⟩ | ⟨fname, m, hfmem, hm, _, hem⟩
          · -- the directory's own entry
            refine ⟨r0, ?_, ?_⟩
            · have hmp : m.path = root := by
                unfold format_metadata at hm
                rcases hs : fs.lstat root with _ | st
                · rw [hs] at hm
                  simp at hm
                · rw [hs] at hm
                  simp only [Option.some.injEq] at hm
                  rw [← hm]
              rw [hem]
              show m.path.data = path.data ++ r0
              rw [hmp, hr0]
            · rw [hem]
              show pyLevel root path = countSepL r0
              exact hlev
          · -- a file entry of this directory
            have hfname : fname ∈ files := mem_of_mem_hiddenFilter hid files _ fname hfmem
            have hgood := hf fname hfname
            have hjoin : pathJoin root fname = root ++ "/" ++ fname :=
              pathJoin_eq root fname hrne hnts hgood.2
            have hmp : m.path = pathJoin root fname := by
              unfold format_metadata at hm
              rcases hs : fs.lstat (pathJoin root fname) with _ | st
              · rw [hs] at hm
                simp at hm
              · rw [hs] at hm
                simp only [Option.some.injEq] at hm
                rw [← hm]
            refine ⟨r0 ++ '/' :: fname.data, ?_, ?_⟩
            · rw [hem]
              show m.path.data = path.data ++ (r0 ++ '/' :: fname.data)
              rw [hmp, hjoin, data_append_sep, hr0, List.append_assoc]
            · rw [hem]
              show pyLevel root path + 1 = countSepL (r0 ++ '/' :: fname.data)
              rw [hlev]
              unfold countSepL
              rw [List.count_append, List.count_cons]
              have : ('/' : Char) ∈ fname.data → False := hgood.2
              have hz : fname.data.count '/' = 0 := List.count_eq_zero.mpr hgood.2
              simp [hz]
        · -- an entry from a descended-into subdirectory
          have hpmem : p ∈ subdirs.toList :=
            visitDir_keptDirs_mem fs hid M depth ext mi nm path root subdirs.toList files p hkept
          have hgood := hn p hpmem
          have hjoin : pathJoin root p.1 = root ++ "/" ++ p.1 :=
            pathJoin_eq root p.1 hrne hnts hgood.2
          have hdata : (pathJoin root p.1).data = path.data ++ (r0 ++ '/' :: p.1.data) := by
            rw [hjoin, data_append_sep, hr0, List.append_assoc]
          have hnts' : noTrailingSep (pathJoin root p.1) := by
            rw [hjoin]
            exact noTrailingSep_join root p.1 hgood.1 hgood.2
          exact ih (pathJoin root p.1) p.2 (r0 ++ '/' :: p.1.data) (hw p hpmem) hdata hnts' e hrec

/-- A two-character needle found in a haystack implies its head occurs there. -/
theorem isSubL_mem_head (x y : Char) : ∀ l : List Char, isSubL [x, y] l = true → x ∈ l := by
  intro l
  induction l with
  | nil => intro h; simp [isSubL, List.isEmpty] at h
  | cons c rest ih =>
    intro h
    unfold isSubL at h
    rw [Bool.or_eq_true] at h
    rcases h with h1 | h2
    · have : x = c := by
        simp [List.isPrefixOf] at h1
        exact h1.1
      exact this ▸ List.mem_cons_self c rest
    · exact List.mem_cons_of_mem c (ih h2)

/-- A separator-free block contains no occurrence of `"/."`. -/
theorem isSubL_sep_dot_of_sep_free (l : List Char) (hl : '/' ∉ l) :
    isSubL ['/', '.'] l = false := by
  by_contra h
  rw [Bool.not_eq_false] at h
  exact hl (isSubL_mem_head '/' '.' l h)

/-- Occurrence of a two-character needle in an append splits into an
occurrence in a part or a straddling occurrence. -/
theorem isSubL_two_append (x y : Char) : ∀ (a b : List Char),
    isSubL [x, y] a = false → isSubL [x, y] b = false →
    (a.getLast? = some x → b.head? ≠ some y) →
    isSubL [x, y] (a ++ b) = false := by
  intro a
  induction a with
  | nil =>
    intro b _ hb _
    exact hb
  | cons c rest ih =>
    intro b ha hb hj
    unfold isSubL at ha ⊢
    rw [Bool.or_eq_false_iff] at ha
    rw [List.cons_append, Bool.or_eq_false_iff]
    constructor
    · -- no straddling occurrence starting at the head
      cases rest with
      | nil =>
        -- a = [c]; prefix [x, y] of c :: b needs c = x and b.head = y
        by_contra hcon
        rw [Bool.not_eq_false] at hcon
        simp only [List.nil_append] at hcon
        have hpre := List.isPrefixOf_iff_prefix.mp hcon
        obtain ⟨t, ht⟩ := hpre
        have hcx : c = x := by
          have := congrArg (fun l => l.head?) ht
          simp at this
          exact this.symm
        have hby : b.head? = some y := by
          cases b with
          | nil => simp at ht
          | cons b0 bs =>
            have : y = b0 := by
              have := congrArg (fun l => l.tail.head?) ht
              simp at this
              exact this
            rw [← this]
            rfl
        exact hj (by rw [hcx.symm]; rfl) hby
      | cons r rs =>
        -- straddling impossible since an occurrence at the head lies in a
        by_contra hcon
        rw [Bool.not_eq_false] at hcon
        have hpre := List.isPrefixOf_iff_prefix.mp hcon
        obtain ⟨t, ht⟩ := hpre
        have hcx : c = x := by
          have := congrArg (fun l => l.head?) ht
          simp at this
          exact this.symm
        have hry : r = y := by
          have := congrArg (fun l => l.tail.head?) ht
          simp at this
          exact this.symm
        have : ([x, y].isPrefixOf (c :: r :: rs)) = true := by
          rw [List.isPrefixOf_iff_prefix]
          exact ⟨rs, by rw [hcx, hry]; rfl⟩
        rw [this] at ha
        exact absurd ha.1 (by simp)
    · -- recurse into the tail
      apply ih b ha.2 hb
      intro hlast
      apply hj
      cases rest with
      | nil => simp at hlast
      | cons r rs =>
        rw [← hlast]
        show (c :: r :: rs).getLast? = (r :: rs).getLast?
        simp [List.getLast?_cons_cons]

/-- Fields of a successfully extracted metadata record. -/
theorem format_metadata_fields (fs : FS) (p : String) (m : Meta)
    (h : format_metadata fs p = some m) : m.path = p ∧ m.name = basename p := by
  unfold format_metadata at h
  rcases hs : fs.lstat p with _ | st
  · rw [hs] at h
    simp at h
  · rw [hs] at h
    simp only [Option.some.injEq] at h
    rw [← h]
    exact ⟨rfl, rfl⟩

/-- The two possible shapes of a join with a separator-free component. -/
theorem data_pathJoin (root n : String) (hn : '/' ∉ n.data) :
    (pathJoin root n).data = root.data ++ n.data ∨
    (pathJoin root n).data = root.data ++ '/' :: n.data := by
  unfold pathJoin
  rw [pyStartsWith_sep_false n hn]
  simp only [Bool.false_eq_true, if_false]
  by_cases hcase : root = "" ∨ pyEndsWith root "/" = true
  · rw [if_pos hcase]
    exact Or.inl (data_append root n)
  · rw [if_neg hcase]
    exact Or.inr (data_append_sep root n)

/-- A string that does not start with a dot has no leading dot character. -/
theorem head_ne_dot_of_not_hidden (n : String) (h : pyStartsWith n "." = false) :
    n.data.head? ≠ some '.' := by
  unfold pyStartsWith at h
  cases hd : n.data with
  | nil => simp
  | cons c rest =>
    rw [hd] at h
    intro hh
    simp only [List.head?_cons, Option.some.injEq] at hh
    have : (('.' : Char) :: ([] : List Char)).isPrefixOf (c :: rest) = true := by
      simp [List.isPrefixOf, hh]
    rw [show (('.' : Char) :: ([] : List Char)) = ("." : String).data from rfl] at this
    rw [this] at h
    simp at h

/-- No occurrence of `"/."` in a separator followed by a non-hidden
separator-free block. -/
theorem isSubL_sep_dot_cons (f : List Char) (hhead : f.head? ≠ some '.')
    (hsep : '/' ∉ f) : isSubL ['/', '.'] ('/' :: f) = false := by
  unfold isSubL
  rw [Bool.or_eq_false_iff]
  constructor
  · cases f with
    | nil => rfl
    | cons c rest =>
      have hc : ¬ (('.' : Char) = c) := by
        intro h
        exact hhead (by simp [h.symm])
      simp [List.isPrefixOf, hc]
  · exact isSubL_sep_dot_of_sep_free f hsep

/-- Shape and cleanliness of the suffix a join appends for a well-formed,
non-hidden name. -/
theorem join_suffix_ok (root n : String) (hne : n ≠ "") (hsep : '/' ∉ n.data)
    (hnh : pyStartsWith n "." = false) :
    ∃ s, (pathJoin root n).data = root.data ++ s ∧ isSubL ['/', '.'] s = false ∧
      s.head? ≠ some '.' ∧ s ≠ [] ∧ s.getLast? ≠ some '/' := by
  have hnd : n.data ≠ [] := by
    intro h
    exact hne (stringExt (by rw [h]))
  have hlast : n.data.getLast? ≠ some '/' := by
    intro h
    exact hsep (List.mem_of_getLast?_eq_some h)
  rcases data_pathJoin root n hsep with h | h
  · exact ⟨n.data, h, isSubL_sep_dot_of_sep_free n.data hsep,
      head_ne_dot_of_not_hidden n hnh, hnd, hlast⟩
  · refine ⟨'/' :: n.data, h, isSubL_sep_dot_cons n.data (head_ne_dot_of_not_hidden n hnh) hsep,
      by simp, by simp, ?_⟩
    have : ('/' :: n.data) = ['/'] ++ n.data := rfl
    rw [this, List.getLast?_append_of_ne_nil _ hnd]
    exact hlast

/-- Entries produced below a well-formed tree with hidden suppression on and
no depth limit: every entry other than the one for `root` itself has a
non-hidden name and its path extends `root` by non-hidden components only. -/
theorem walkAux_no_hidden (fs : FS) (M : Nat) (ext : Option String) (mi : Option Int)
    (nm : Option String) (path : String) :
    ∀ (fuel : Nat) (root : String) (t : FSTree), WF t → root ≠ "" →
      ∀ e ∈ (walkAux fs false M none ext mi nm path fuel root t).2,
        (e.path = root ∧ e.name = basename root) ∨
        ∃ s, e.path.data = root.data ++ s ∧ isSubL ['/', '.'] s = false ∧
          s.head? ≠ some '.' ∧ pyStartsWith e.name "." = false := by
  intro fuel
  induction fuel with
  | zero =>
    intro root t _ _ e he
    cases t
    simp [walkAux] at he
  | succ fuel ih =>
    intro root t hwf hrne e he
    cases t with
    | node subdirs files =>
      cases hwf with
      | node hn hw hf =>
        rcases walkAux_mem fs false M none ext mi nm path fuel root subdirs files e he with
          hvis | ⟨p, hkept, hrec⟩
        · rcases visitDir_mem_entries fs false M none ext mi nm path root subdirs.toList files
              e hvis with ⟨m, hm, hem⟩ | ⟨fname, m, hfmem, hm, _, hem⟩
          · obtain ⟨hp, hname⟩ := format_metadata_fields fs root m hm
            exact Or.inl ⟨by rw [hem]; exact hp, by rw [hem]; exact hname⟩
          · simp only [Bool.false_eq_true, if_false] at hfmem
            rw [List.mem_filter] at hfmem
            obtain ⟨hfmem, hfnh⟩ := hfmem
            rw [Bool.not_eq_eq_eq_not, Bool.not_true] at hfnh
            have hgood := hf fname hfmem
            obtain ⟨hp, hname⟩ := format_metadata_fields fs (pathJoin root fname) m hm
            obtain ⟨s, hs, hsub, hhead, _, _⟩ := join_suffix_ok root fname hgood.1 hgood.2 hfnh
            right
            refine ⟨s, ?_, hsub, hhead, ?_⟩
            · rw [hem]
              show m.path.data = root.data ++ s
              rw [hp, hs]
            · rw [hem]
              show pyStartsWith m.name "." = false
              rw [hname, basename_pathJoin root fname hgood.2]
              exact hfnh
        · have hpmem : p ∈ subdirs.toList :=
            visitDir_keptDirs_mem fs false M none ext mi nm path root subdirs.toList files p hkept
          -- the kept subdirectory passed the hidden filter
          have hkf := visitBody_keptDirs_mem fs false M ext mi nm (pyLevel root path) root
            subdirs.toList files p (by rw [← visitDir_none_eq]; exact hkept)
          simp only [Bool.false_eq_true, if_false] at hkf
          rw [List.mem_filter] at hkf
          obtain ⟨_, hpnh⟩ := hkf
          rw [Bool.not_eq_eq_eq_not, Bool.not_true] at hpnh
          have hgood := hn p hpmem
          obtain ⟨s0, hs0, hsub0, hhead0, hne0, hlast0⟩ :=
            join_suffix_ok root p.1 hgood.1 hgood.2 hpnh
          have hrne' : pathJoin root p.1 ≠ "" := by
            intro h
            have : (pathJoin root p.1).data = [] := by rw [h]
            rw [hs0] at this
            exact hne0 (List.append_eq_nil.mp this).2
          rcases ih (pathJoin root p.1) p.2 (hw p hpmem) hrne' e hrec with
            ⟨hp, hname⟩ | ⟨s1, hs1, hsub1, hhead1, hnh1⟩
          · right
            refine ⟨s0, ?_, hsub0, hhead0, ?_⟩
            · rw [hp, hs0]
            · rw [hname, basename_pathJoin root p.1 hgood.2]
              exact hpnh
          · right
            refine ⟨s0 ++ s1, ?_, ?_, ?_, hnh1⟩
            · rw [hs1, hs0, List.append_assoc]
            · exact isSubL_two_append '/' '.' s0 s1 hsub0 hsub1
                (fun hl => absurd hl hlast0)
            · rw [List.head?_append_of_ne_nil _ hne0]
              exact hhead0

/-- Entries emitted by a visit under a depth limit have level at most
`d + 1`. -/
theorem visitDir_entries_level_le (fs : FS) (hid : Bool) (M : Nat) (d : Nat)
    (ext : Option String) (mi : Option Int) (nm : Option String) (path root : String)
    (subdirs : List (String × FSTree)) (files : List String) :
    ∀ e ∈ (visitDir fs hid M (some d) ext mi nm path root subdirs files).entries,
      e.level ≤ d + 1 := by
  intro e he
  unfold visitDir at he
  rcases hsk : decide (pyLevel root path > d) with _ | _
  · simp only [hsk, Bool.false_eq_true, if_false] at he
    have hle : pyLevel root path ≤ d := by
      have := of_decide_eq_false hsk
      omega
    rcases visitBody_mem_entries fs hid M ext mi nm _ root subdirs files e he with
      ⟨m, _, hem⟩ | ⟨fname, m, _, _, _, hem⟩
    · rw [hem]
      show pyLevel root path ≤ d + 1
      omega
    · rw [hem]
      show pyLevel root path + 1 ≤ d + 1
      omega
  · simp only [hsk, if_true] at he
    simp at he

/-- Under a depth limit, every emitted entry has level at most `d + 1`. -/
theorem walkAux_level_le (fs : FS) (hid : Bool) (M : Nat) (d : Nat)
    (ext : Option String) (mi : Option Int) (nm : Option String) (path : String) :
    ∀ (fuel : Nat) (root : String) (t : FSTree),
      ∀ e ∈ (walkAux fs hid M (some d) ext mi nm path fuel root t).2, e.level ≤ d + 1 := by
  intro fuel
  induction fuel with
  | zero =>
    intro root t e he
    cases t
    simp [walkAux] at he
  | succ fuel ih =>
    intro root t e he
    cases t with
    | node subdirs files =>
      rcases walkAux_mem fs hid M (some d) ext mi nm path fuel root subdirs files e he with
        hvis | ⟨p, _, hrec⟩
      · exact visitDir_entries_level_le fs hid M d ext mi nm path root subdirs.toList files e hvis
      · exact ih (pathJoin root p.1) p.2 e hrec

/-- Claim C4, amended: the code computes a directory's level as
`root.replace(path, "").count("/")`, which equals the number of path
separators between the directory and the scan root whenever the root path
contains no separator at all (file entries then sit at their directory's
level plus one separator).  For root paths containing separators the claim
fails: a trailing separator or a recurrence of the path text inside a
descendant path removes extra separators (see the counterexample). -/
theorem c4_level_amended :
    ∀ (fs : FS) (hid : Bool) (M : Nat) (depth : Option Nat) (ext : Option String)
      (mi : Option Int) (nm : Option String) (path : String) (t : FSTree),
      path ≠ "" → '/' ∉ path.data → WF t →
      ∀ e ∈ (recursive_explore fs path hid M depth ext mi nm t).2,
        e.level = countSepL (e.path.data.drop path.data.length) := by
  intro fs hid M depth ext mi nm path t hne hsep hwf e he
  unfold recursive_explore at he
  obtain ⟨re, hre, hlev⟩ := walkAux_level_inv fs hid M depth ext mi nm path hne hsep
    t.height path t [] hwf (by rw [List.append_nil]) (noTrailingSep_of_sepFree path hsep) e he
  rw [hre, List.drop_left, hlev]

/-- Claim C5, amended: under a depth limit `d` every entry in the result has
level at most `d + 1` (depth-skipped directories contribute neither their
own entry nor their files, though the walk still enumerates below them); and
for a separator-free root path, a scan with `depth = 0` returns exactly the
root directory at level 0 and its direct children at level 1.  The claim's
blanket statement fails for root paths with separators (see the
counterexample). -/
theorem c5_depth_amended :
    (∀ (fs : FS) (hid : Bool) (M : Nat) (d : Nat) (ext : Option String)
       (mi : Option Int) (nm : Option String) (path : String) (t : FSTree),
       ∀ e ∈ (recursive_explore fs path hid M (some d) ext mi nm t).2, e.level ≤ d + 1) ∧
    (∀ (fs : FS) (hid : Bool) (M : Nat) (ext : Option String)
       (mi : Option Int) (nm : Option String) (path : String) (t : FSTree),
       path ≠ "" → '/' ∉ path.data → WF t →
       ∀ e ∈ (recursive_explore fs path hid M (some 0) ext mi nm t).2,
         (e.path = path ∧ e.level = 0) ∨
         (countSepL e.path.data = countSepL path.data + 1 ∧ e.level = 1)) := by
  constructor
  · intro fs hid M d ext mi nm path t e he
    unfold recursive_explore at he
    exact walkAux_level_le fs hid M d ext mi nm path t.height path t e he
  · intro fs hid M ext mi nm path t hne hsep hwf e he
    unfold recursive_explore at he
    have hlev0 : pyLevel path path = 0 := by
      rw [pyLevel_eq_countSepL path path hsep]
      exact countSepL_path_zero path hsep
    cases t with
    | node subdirs files =>
      have hh : FSTree.height (FSTree.node subdirs files) = FSChildren.heightC subdirs + 1 := rfl
      rw [hh] at he
      cases hwf with
      | node hn hw hf =>
        rcases walkAux_mem fs hid M (some 0) ext mi nm path (FSChildren.heightC subdirs)
            path subdirs files e he with hvis | ⟨p, hkept, hrec⟩
        · rcases visitDir_mem_entries fs hid M (some 0) ext mi nm path path subdirs.toList files
              e hvis with ⟨m, hm, hem⟩ | ⟨fname, m, hfmem, hm, _, hem⟩
          · obtain ⟨hp, _⟩ := format_metadata_fields fs path m hm
            left
            refine ⟨?_, ?_⟩
            · rw [hem]
              show m.path = path
              exact hp
            · rw [hem]
              show pyLevel path path = 0
              exact hlev0
          · have hfname : fname ∈ files := mem_of_mem_hiddenFilter hid files _ fname hfmem
            have hgood := hf fname hfname
            obtain ⟨hp, _⟩ := format_metadata_fields fs (pathJoin path fname) m hm
            have hjoin : pathJoin path fname = path ++ "/" ++ fname :=
              pathJoin_eq path fname hne (noTrailingSep_of_sepFree path hsep) hgood.2
            right
            refine ⟨?_, ?_⟩
            · rw [hem]
              show countSepL m.path.data = countSepL path.data + 1
              rw [hp, hjoin, data_append_sep]
              unfold countSepL
              rw [List.count_append, List.count_cons]
              have hz : fname.data.count '/' = 0 := List.count_eq_zero.mpr hgood.2
              simp [hz]
            · rw [hem]
              show pyLevel path path + 1 = 1
              rw [hlev0]
        · exfalso
          have hpmem : p ∈ subdirs.toList :=
            visitDir_keptDirs_mem fs hid M (some 0) ext mi nm path path subdirs.toList files p hkept
          have hgood := hn p hpmem
          have hjoin : pathJoin path p.1 = path ++ "/" ++ p.1 :=
            pathJoin_eq path p.1 hne (noTrailingSep_of_sepFree path hsep) hgood.2
          have hcnt : 0 < countSepL (pathJoin path p.1).data := by
            rw [hjoin, data_append_sep]
            unfold countSepL
            rw [List.count_append, List.count_cons]
            simp
          rw [walkAux_high_eq_nil fs hid M 0 ext mi nm path hsep
            (FSChildren.heightC subdirs) (pathJoin path p.1) p.2 (hw p hpmem) hcnt] at hrec
          simp at hrec

/-- Claim C8, amended: when hidden entries are not requested, a
non-recursive scan returns no entry whose name starts with a dot, and a
recursive scan **without a depth limit** returns, besides the root's own
entry, only entries with non-hidden names whose paths extend the root by
non-hidden components only (so hidden subdirectories are not descended
into).  With a depth limit set, `continue` skips the hidden filtering for
depth-exceeded directories while `os.walk` still descends below them, and a
hidden entry can then surface (see the counterexample). -/
theorem c8_hidden_amended :
    (∀ (fs : FS) (path : String) (M : Nat) (ext : Option String) (mi : Option Int)
       (nm : Option String) (items0 : List String),
       fs.listdir path = Except.ok items0 → (∀ i ∈ items0, '/' ∉ i.data) →
       ∀ e ∈ (explore_directory fs path false M ext mi nm).2,
         pyStartsWith e.name "." = false) ∧
    (∀ (fs : FS) (path : String) (M : Nat) (ext : Option String) (mi : Option Int)
       (nm : Option String) (t : FSTree), WF t → path ≠ "" →
       ∀ e ∈ (recursive_explore fs path false M none ext mi nm t).2,
         e.path = path ∨
         (pyStartsWith e.name "." = false ∧
          ∃ s, e.path.data = path.data ++ s ∧ isSubL ['/', '.'] s = false ∧
            s.head? ≠ some '.')) := by
  constructor
  · intro fs path M ext mi nm items0 hls hwf e he
    unfold explore_directory at he
    rw [hls] at he
    simp only [Bool.false_eq_true, if_false, List.mem_filterMap] at he
    obtain ⟨item, hitem, hpi⟩ := he
    have hitem1 : item ∈ items0.filter fun i => !pyStartsWith i "." := by
      by_cases hbig : (items0.filter fun i => !pyStartsWith i ".").length > M
      · rw [if_pos hbig] at hitem
        exact List.mem_of_mem_take hitem
      · rw [if_neg hbig] at hitem
        exact hitem
    rw [List.mem_filter] at hitem1
    obtain ⟨hitem0, hnh⟩ := hitem1
    rw [Bool.not_eq_eq_eq_not, Bool.not_true] at hnh
    unfold processItem at hpi
    rcases hm : format_metadata fs (pathJoin path item) with _ | m
    · rw [hm] at hpi
      simp at hpi
    · rw [hm] at hpi
      by_cases hflt : apply_filters m ext mi nm
      · simp only [hflt, if_true, Option.some.injEq] at hpi
        obtain ⟨_, hname⟩ := format_metadata_fields fs (pathJoin path item) m hm
        rw [← hpi]
        show pyStartsWith m.name "." = false
        rw [hname, basename_pathJoin path item (hwf item hitem0)]
        exact hnh
      · simp [hflt] at hpi
  · intro fs path M ext mi nm t hwf hne e he
    unfold recursive_explore at he
    rcases walkAux_no_hidden fs M ext mi nm path t.height path t hwf hne e he with
      ⟨hp, _⟩ | ⟨s, hs, hsub, hhead, hnh⟩
    · exact Or.inl hp
    · exact Or.inr ⟨hnh, s, hs, hsub, hhead⟩

/-! ## Well-formedness of the concrete trees -/

theorem wf_fsLeaf : WF fsLeaf := by
  apply WF.node <;> intro p hp <;> simp [FSChildren.toList, fsLeaf] at hp

theorem wf_treeW : WF treeW := by
  apply WF.node
  · intro p hp
    simp only [treeW, FSChildren.toList, List.mem_singleton] at hp
    subst hp
    exact ⟨by decide, by decide⟩
  · intro p hp
    simp only [treeW, FSChildren.toList, List.mem_singleton] at hp
    subst hp
    exact wf_fsLeaf
  · intro f hf
    simp only [treeW, List.mem_singleton] at hf
    subst hf
    exact ⟨by decide, by decide⟩

/-! ## Further shared lemmas -/

/-- A visit that is not depth-skipped runs the full loop body. -/
theorem visitDir_no_skip (fs : FS) (hid : Bool) (M : Nat) (depth : Option Nat)
    (ext : Option String) (mi : Option Int) (nm : Option String) (path root : String)
    (subdirs : List (String × FSTree)) (files : List String)
    (h : match depth with | some d => pyLevel root path ≤ d | none => True) :
    visitDir fs hid M depth ext mi nm path root subdirs files =
      visitBody fs hid M ext mi nm (pyLevel root path) root subdirs files := by
  rcases depth with _ | d
  · rfl
  · replace h : pyLevel root path ≤ d := h
    unfold visitDir
    have hskip : decide (pyLevel root path > d) = false := by
      simp only [decide_eq_false_iff_not]
      omega
    simp only [hskip, Bool.false_eq_true, if_false]

/-- Packaging of the stable-sort properties of `List.mergeSort`. -/
theorem mergeSortStable (le : Entry → Entry → Bool)
    (htrans : ∀ a b c : Entry, le a b → le b c → le a c)
    (htotal : ∀ a b : Entry, le a b || le b a) (l : List Entry) :
    (l.mergeSort le).Perm l ∧ (l.mergeSort le).Pairwise (fun a b => le a b = true) ∧
      ∀ c : List Entry, c.Sublist l → c.Pairwise (fun a b => le a b = true) →
        c.Sublist (l.mergeSort le) :=
  ⟨List.mergeSort_perm l le, List.sorted_mergeSort htrans htotal l,
   fun _ hs hp => List.sublist_mergeSort htrans htotal hp hs⟩

/-! ## Claim C1 -/

/-- Counterexample to claim C1: an entry whose `is_link` flag is true but
whose link target resolves to a file is labelled `"FILE"` by the table
formatter and `"[FILE]"` by the tree formatter, not `"LINK"`. -/
theorem c1_counterexample :
    eLinkToFile.is_link = true ∧ tableType eLinkToFile = "FILE" ∧
    treeSymbol eLinkToFile = "[FILE]" ∧ tableType eLinkToFile ≠ "LINK" ∧
    treeSymbol eLinkToFile ≠ "[LINK]" := by decide

/-- Claim C1, amended: the type label of both formatters is `"LINK"` exactly
when both `is_file` and `is_dir` are false; `is_link` does not take
precedence (the table checks `is_file` first, the tree checks `is_dir`
first), so a link is labelled `LINK` only when its target resolves to
neither a file nor a directory. -/
theorem c1_link_label :
    ∀ e : Entry, (tableType e = "LINK" ↔ e.is_file = false ∧ e.is_dir = false) ∧
      (treeSymbol e = "[LINK]" ↔ e.is_file = false ∧ e.is_dir = false) := by
  intro e
  unfold tableType treeSymbol
  rcases e with ⟨n, p, f, d, l, s, m, lvl⟩
  cases f <;> cases d <;> simp

/-- Witness: a dangling link is labelled `"LINK"`. -/
theorem c1_link_label_witness : tableType brokenLinkEntry = "LINK" :=
  (c1_link_label brokenLinkEntry).1.mpr ⟨rfl, rfl⟩

/-! ## Claim C2 -/

/-- Counterexample to claim C2: a non-directory entry of the input (here a
broken symbolic link, neither file nor directory) is dropped by
`sort_entries` when a key is given, instead of appearing in the sorted
non-directory partition. -/
theorem c2_counterexample :
    brokenLinkEntry.is_dir = false ∧ brokenLinkEntry.is_file = false ∧
    [brokenLinkEntry].filter (fun e => !e.is_dir) = [brokenLinkEntry] ∧
    sort_entries [brokenLinkEntry] (some "name") = [] := by
  refine ⟨rfl, rfl, by decide, ?_⟩
  simp [sort_entries, optStrTruthy, brokenLinkEntry]

/-- Claim C2, amended: with no key `sort_entries` is the identity; with a
key it returns the directory partition in original order followed by the
`is_file` partition (entries that are neither file nor directory are
dropped) stably sorted by the key: case-folded name, numeric size, or the
modification-timestamp string, each ascending, ties keeping input order
(stability stated as: every key-sorted sublist of the input files survives
as a sublist of the output). -/
theorem c2_sort_amended :
    (∀ es : List Entry, sort_entries es none = es) ∧
    (∀ es : List Entry, ∃ f,
      sort_entries es (some "name") = (es.filter fun e => e.is_dir) ++ f ∧
      f.Perm (es.filter fun e => e.is_file) ∧
      f.Pairwise (fun a b => decide (pyLower a.name ≤ pyLower b.name) = true) ∧
      (∀ c : List Entry, c.Sublist (es.filter fun e => e.is_file) →
        c.Pairwise (fun a b => decide (pyLower a.name ≤ pyLower b.name) = true) →
        c.Sublist f)) ∧
    (∀ es : List Entry, ∃ f,
      sort_entries es (some "size") = (es.filter fun e => e.is_dir) ++ f ∧
      f.Perm (es.filter fun e => e.is_file) ∧
      f.Pairwise (fun a b => decide (a.size_bytes ≤ b.size_bytes) = true) ∧
      (∀ c : List Entry, c.Sublist (es.filter fun e => e.is_file) →
        c.Pairwise (fun a b => decide (a.size_bytes ≤ b.size_bytes) = true) →
        c.Sublist f)) ∧
    (∀ es : List Entry, ∃ f,
      sort_entries es (some "modified") = (es.filter fun e => e.is_dir) ++ f ∧
      f.Perm (es.filter fun e => e.is_file) ∧
      f.Pairwise (fun a b => decide (a.modified ≤ b.modified) = true) ∧
      (∀ c : List Entry, c.Sublist (es.filter fun e => e.is_file) →
        c.Pairwise (fun a b => decide (a.modified ≤ b.modified) = true) →
        c.Sublist f)) := by
  refine ⟨fun es => rfl, fun es => ?_, fun es => ?_, fun es => ?_⟩
  · refine ⟨(es.filter fun e => e.is_file).mergeSort
        (fun a b => decide (pyLower a.name ≤ pyLower b.name)), ?_, ?_⟩
    · rfl
    · exact mergeSortStable _
        (fun a b c h1 h2 => by
          simp only [decide_eq_true_eq] at *
          exact le_trans h1 h2)
        (fun a b => by
          rcases le_total (pyLower a.name) (pyLower b.name) with h | h <;> simp [h]) _
  · refine ⟨(es.filter fun e => e.is_file).mergeSort
        (fun a b => decide (a.size_bytes ≤ b.size_bytes)), ?_, ?_⟩
    · rfl
    · exact mergeSortStable _
        (fun a b c h1 h2 => by
          simp only [decide_eq_true_eq] at *
          omega)
        (fun a b => by
          rcases le_total a.size_bytes b.size_bytes with h | h <;> simp [h]) _
  · refine ⟨(es.filter fun e => e.is_file).mergeSort
        (fun a b => decide (a.modified ≤ b.modified)), ?_, ?_⟩
    · rfl
    · exact mergeSortStable _
        (fun a b c h1 h2 => by
          simp only [decide_eq_true_eq] at *
          exact le_trans h1 h2)
        (fun a b => by
          rcases le_total a.modified b.modified with h | h <;> simp [h]) _

/-- Witness for C2 on concrete inputs. -/
theorem c2_sort_amended_witness :
    sort_entries [brokenLinkEntry] none = [brokenLinkEntry] ∧
    (sort_entries [fileEntryA, fileEntryB] (some "name")).length = 2 := by
  constructor
  · exact c2_sort_amended.1 [brokenLinkEntry]
  · obtain ⟨f, heq, hperm, _, _⟩ := c2_sort_amended.2.1 [fileEntryA, fileEntryB]
    rw [heq, List.length_append, hperm.length_eq]
    decide

/-! ## Claim C3 -/

/-- Counterexample to claim C3: with `max_entries = 1`, a directory holding
one subdirectory and one file triggers the warning, yet the retained listing
(kept subdirectories plus kept files) still has two entries, because each of
the two lists is truncated to the cap separately. -/
theorem c3_counterexample :
    (visitDir fsAllDir false 1 none none none none "r" "r"
        [("d", fsLeaf)] ["f"]).warns =
      ["⚠️  r has 2 items. Showing first 1."] ∧
    (visitDir fsAllDir false 1 none none none none "r" "r"
        [("d", fsLeaf)] ["f"]).keptDirs.length +
      (visitDir fsAllDir false 1 none none none none "r" "r"
        [("d", fsLeaf)] ["f"]).keptFiles.length = 2 ∧
    ¬ ((recursive_explore fsAllDir "r" false 1 none none none none treeC3).2.length ≤ 1 + 1) := by
  decide

/-- Claim C3, amended: for every visited directory that is not depth-skipped,
if the combined (hidden-filtered) subdirectory+file count exceeds
`max_entries` then a warning naming that directory and the true count is
emitted and each of the two lists is truncated to `max_entries` — so at most
`max_entries` subdirectories plus `max_entries` files are retained, not at
most `max_entries` entries in total as the claim states. -/
theorem c3_cap_amended :
    ∀ (fs : FS) (hid : Bool) (M : Nat) (depth : Option Nat) (ext : Option String)
      (mi : Option Int) (nm : Option String) (path root : String)
      (subdirs : List (String × FSTree)) (files : List String),
      (match depth with | some d => pyLevel root path ≤ d | none => True) →
      ((visitDir fs hid M depth ext mi nm path root subdirs files).keptDirs.length ≤ M ∧
       (visitDir fs hid M depth ext mi nm path root subdirs files).keptFiles.length ≤ M ∧
       (((if hid then subdirs else subdirs.filter fun p => !pyStartsWith p.1 ".").length +
         (if hid then files else files.filter fun f => !pyStartsWith f ".").length > M) →
          (visitDir fs hid M depth ext mi nm path root subdirs files).warns =
            ["⚠️  " ++ root ++ " has "
              ++ toString ((if hid then subdirs else subdirs.filter fun p => !pyStartsWith p.1 ".").length +
                  (if hid then files else files.filter fun f => !pyStartsWith f ".").length)
              ++ " items. Showing first " ++ toString M ++ "."] ∧
          (visitDir fs hid M depth ext mi nm path root subdirs files).keptDirs =
            (if hid then subdirs else subdirs.filter fun p => !pyStartsWith p.1 ".").take M ∧
          (visitDir fs hid M depth ext mi nm path root subdirs files).keptFiles =
            (if hid then files else files.filter fun f => !pyStartsWith f ".").take M) ∧
       (((if hid then subdirs else subdirs.filter fun p => !pyStartsWith p.1 ".").length +
         (if hid then files else files.filter fun f => !pyStartsWith f ".").length ≤ M) →
          (visitDir fs hid M depth ext mi nm path root subdirs files).warns = [])) := by
  intro fs hid M depth ext mi nm path root subdirs files hnd
  rw [visitDir_no_skip fs hid M depth ext mi nm path root subdirs files hnd]
  unfold visitBody
  by_cases hbig : (if hid then subdirs else subdirs.filter fun p => !pyStartsWith p.1 ".").length +
      (if hid then files else files.filter fun f => !pyStartsWith f ".").length > M
  · simp only [hbig, if_true]
    refine ⟨by simp, by simp, fun h => ⟨trivial, trivial, trivial⟩, fun h => by omega⟩
  · simp only [hbig, if_false]
    refine ⟨by omega, by omega, fun h => h.elim, fun h => trivial⟩

/-- Witness for C3 at a concrete overfull directory. -/
theorem c3_cap_amended_witness :
    (visitDir fsAllDir false 1 none none none none "r" "r"
        [("d", fsLeaf)] ["f"]).keptDirs.length ≤ 1 ∧
    (visitDir fsAllDir false 1 none none none none "r" "r"
        [("d", fsLeaf)] ["f"]).keptFiles.length ≤ 1 := by
  have h := c3_cap_amended fsAllDir false 1 none none none none "r" "r"
    [("d", fsLeaf)] ["f"] trivial
  exact ⟨h.1, h.2.1⟩

/-! ## Claims C4, C5, C8: counterexamples and witnesses -/

/-- Counterexample to claim C4: scanning root path `"a/b"` over a
subdirectory chain `a/b` makes the walk visit `"a/b/a/b"`, whose text
contains the root path twice; `replace` deletes both occurrences, so the
directory is assigned level 1 although two separators stand between it and
the scan root. -/
theorem c4_counterexample :
    ((recursive_explore fsAllDir "a/b" false 5000 none none none none treeC4).2.map
        fun e => (e.path, e.level)) = [("a/b", 0), ("a/b/a", 1), ("a/b/a/b", 1)] ∧
    countSepL (("a/b/a/b" : String).data.drop ("a/b" : String).data.length) = 2 ∧
    ¬ (∀ e ∈ (recursive_explore fsAllDir "a/b" false 5000 none none none none treeC4).2,
        e.is_dir = true → e.level = countSepL (e.path.data.drop ("a/b" : String).data.length)) := by
  refine ⟨by decide, by decide, ?_⟩
  intro h
  have := h ⟨"b", "a/b/a/b", false, true, false, 0, "t", 1⟩ (by decide) (by decide)
  exact absurd this (by decide)

/-- Witness for C4: in a scan from the separator-free root `"r"`, the file
entry `r/a.txt` carries level 1, the separator count of its path beyond the
root. -/
theorem c4_level_amended_witness :
    (⟨"a.txt", "r/a.txt", false, true, false, 0, "t", 1⟩ : Entry).level =
      countSepL (((⟨"a.txt", "r/a.txt", false, true, false, 0, "t", 1⟩ : Entry)).path.data.drop
        ("r" : String).data.length) :=
  c4_level_amended fsAllDir false 5000 none none none none "r" treeW
    (by decide) (by decide) wf_treeW _ (by decide)

/-- Counterexample to claim C5: with the trailing-separator root path `"a/"`
and `depth = 0`, the subdirectory `a/s` is assigned level 0 and appears in
the result, so the result does not consist only of the root and its direct
file children. -/
theorem c5_counterexample :
    ((recursive_explore fsAllDir "a/" false 5000 (some 0) none none none treeC5).2.map
        fun e => (e.path, e.level, e.is_dir)) = [("a/", 0, true), ("a/s", 0, true)] ∧
    ¬ (∀ e ∈ (recursive_explore fsAllDir "a/" false 5000 (some 0) none none none treeC5).2,
        e.path = "a/" ∨ e.is_file = true) := by
  refine ⟨by decide, ?_⟩
  intro h
  have := h ⟨"s", "a/s", false, true, false, 0, "t", 0⟩ (by decide)
  rcases this with h1 | h2
  · exact absurd h1 (by decide)
  · exact absurd h2 (by decide)

/-- Witness for C5 at a concrete depth-0 scan from the separator-free root
`"r"`. -/
theorem c5_depth_amended_witness :
    ((⟨"r", "r", false, true, false, 0, "t", 0⟩ : Entry).level ≤ 0 + 1) ∧
    (((⟨"r", "r", false, true, false, 0, "t", 0⟩ : Entry).path = "r" ∧
        (⟨"r", "r", false, true, false, 0, "t", 0⟩ : Entry).level = 0) ∨
      (countSepL (("r" : String)).data = countSepL (("r" : String)).data + 1 ∧
        (⟨"r", "r", false, true, false, 0, "t", 0⟩ : Entry).level = 1)) := by
  constructor
  · exact c5_depth_amended.1 fsAllDir false 5000 0 none none none "r" treeW _ (by decide)
  · have h := c5_depth_amended.2 fsAllDir false 5000 none none none "r" treeW
      (by decide) (by decide) wf_treeW ⟨"r", "r", false, true, false, 0, "t", 0⟩ (by decide)
    rcases h with ⟨h1, h2⟩ | ⟨h1, h2⟩
    · exact Or.inl ⟨h1, h2⟩
    · exact Or.inr ⟨by exact h1, h2⟩

/-- Counterexample to claim C8: with root path `"a/b/"`, `depth = 1` and
hidden entries not requested, the directory `a/b/q/a/b` computes level 2 and
is skipped before hidden filtering, the walk still descends, and its hidden
subdirectory `.h` computes level 1 and lands in the result. -/
theorem c8_counterexample :
    ((recursive_explore fsAllDir "a/b/" false 5000 (some 1) none none none treeC8).2.map
        fun e => (e.name, e.level)) = [("", 0), ("q", 0), ("a", 1), (".h", 1)] ∧
    ¬ (∀ e ∈ (recursive_explore fsAllDir "a/b/" false 5000 (some 1) none none none treeC8).2,
        e.path = "a/b/" ∨ pyStartsWith e.name "." = false) := by
  refine ⟨by decide, ?_⟩
  intro h
  have := h ⟨".h", "a/b/q/a/b/.h", false, true, false, 0, "t", 1⟩ (by decide)
  rcases this with h1 | h2
  · exact absurd h1 (by decide)
  · exact absurd h2 (by decide)

/-- Witness for C8 at a concrete depth-unlimited scan. -/
theorem c8_hidden_amended_witness :
    ((⟨"a.txt", "r/a.txt", false, true, false, 0, "t", 1⟩ : Entry).path = "r" ∨
      (pyStartsWith (⟨"a.txt", "r/a.txt", false, true, false, 0, "t", 1⟩ : Entry).name "." = false ∧
       ∃ s, (⟨"a.txt", "r/a.txt", false, true, false, 0, "t", 1⟩ : Entry).path.data =
          ("r" : String).data ++ s ∧
        isSubL ['/', '.'] s = false ∧ s.head? ≠ some '.')) ∧
    pyStartsWith (⟨"a.txt", "p/a.txt", true, false, false, 10, "t", 0⟩ : Entry).name "." = false := by
  constructor
  · exact c8_hidden_amended.2 fsAllDir "r" 5000 none none none treeW wf_treeW (by decide)
      _ (by decide)
  · exact c8_hidden_amended.1 fsAllFile "p" 5000 none none none ["a.txt", "b.txt", "c.txt"]
      rfl (by decide) _ (by decide)

/-! ## Claim C6 -/

/-- Claim C6, confirmed: `apply_filters` returns true for every directory
entry regardless of the filter settings, and for a non-directory entry it
returns true exactly when every provided filter passes — the name ends with
the extension suffix, the size is not strictly below the minimum, and the
case-folded name filter occurs in the case-folded entry name — an omitted
filter imposing no constraint. -/
theorem c6_filters :
    ∀ (m : Meta) (ext : Option String) (min_size : Option Int) (nameF : Option String),
      apply_filters m ext min_size nameF = true ↔
        (m.is_dir = true ∨
          ((∀ s, ext = some s → pyEndsWith m.name s = true) ∧
           (∀ k, min_size = some k → ¬ ((m.size_bytes : Int) < k)) ∧
           (∀ s, nameF = some s → pyIn (pyLower s) (pyLower m.name) = true))) := by
  intro m ext min_size nameF
  unfold apply_filters
  by_cases hd : m.is_dir
  · simp [hd]
  · simp only [hd, if_false, Bool.false_eq_true]
    have hext : ∀ s : String, s = "" → pyEndsWith m.name s = true := by
      intro s hs
      subst hs
      simp [pyEndsWith, List.isSuffixOf]
    have hin : ∀ s : String, s = "" → pyIn (pyLower s) (pyLower m.name) = true := by
      intro s hs
      subst hs
      show isSubL (pyLower "").data (pyLower m.name).data = true
      have : (pyLower "").data = [] := rfl
      rw [this]
      exact isSubL_nil _
    rcases ext with _ | es <;> rcases min_size with _ | k <;> rcases nameF with _ | ns <;>
        simp only [optStrTruthy, optIntTruthy] <;>
        (try by_cases h1 : es = "") <;> (try by_cases h2 : k = 0) <;>
        (try by_cases h3 : ns = "") <;>
        simp_all

/-- Witness: a directory passes the filters whatever they are. -/
theorem c6_filters_witness : apply_filters mDirMeta (some ".py") (some 99) (some "zz") = true :=
  (c6_filters mDirMeta (some ".py") (some 99) (some "zz")).mpr (Or.inl rfl)

/-! ## Claim C7 -/

/-- Claim C7, confirmed: a non-recursive scan returns at most `max_entries`
entries, and whenever the hidden-suppressed listing is longer than
`max_entries` the warning naming the true count and the cap is printed and
exactly the first `max_entries` names in enumeration order are processed for
metadata and filtering. -/
theorem c7_truncation :
    ∀ (fs : FS) (path : String) (hid : Bool) (M : Nat) (ext : Option String)
      (mi : Option Int) (nm : Option String) (items0 : List String),
      fs.listdir path = Except.ok items0 →
      ((explore_directory fs path hid M ext mi nm).2.length ≤ M ∧
        ((if hid then items0 else items0.filter fun i => !pyStartsWith i ".").length > M →
          (explore_directory fs path hid M ext mi nm).1 =
            ["⚠️  Directory has "
              ++ toString (if hid then items0 else
                  items0.filter fun i => !pyStartsWith i ".").length
              ++ " items. Showing first " ++ toString M ++ "."] ∧
          (explore_directory fs path hid M ext mi nm).2 =
            (((if hid then items0 else items0.filter fun i => !pyStartsWith i ".").take M).filterMap
              (processItem fs path ext mi nm)))) := by
  intro fs path hid M ext mi nm items0 h
  unfold explore_directory
  rw [h]
  simp only
  constructor
  · by_cases hlen : (if hid then items0 else items0.filter fun i => !pyStartsWith i ".").length > M
    · simp only [hlen, if_true]
      calc ((if hid then items0 else items0.filter fun i => !pyStartsWith i ".").take M
              |>.filterMap (processItem fs path ext mi nm)).length
          ≤ ((if hid then items0 else items0.filter fun i => !pyStartsWith i ".").take M).length :=
            List.length_filterMap_le _ _
        _ ≤ M := by simp
    · simp only [hlen, if_false]
      calc ((if hid then items0 else items0.filter fun i => !pyStartsWith i ".").filterMap
              (processItem fs path ext mi nm)).length
          ≤ (if hid then items0 else items0.filter fun i => !pyStartsWith i ".").length :=
            List.length_filterMap_le _ _
        _ ≤ M := by omega
  · intro hlen
    simp [hlen]

/-- Witness for C7: three files against a cap of two. -/
theorem c7_truncation_witness :
    (explore_directory fsAllFile "p" false 2 none none none).2.length ≤ 2 ∧
    (explore_directory fsAllFile "p" false 2 none none none).1 =
      ["⚠️  Directory has 3 items. Showing first 2."] := by
  have h := c7_truncation fsAllFile "p" false 2 none none none
    ["a.txt", "b.txt", "c.txt"] rfl
  refine ⟨h.1, ?_⟩
  have h2 := (h.2 (by decide)).1
  rw [h2]
  decide

/-! ## Claim C9 -/

/-- Claim C9, confirmed: when listing the root raises, the non-recursive
scan prints a message that distinguishes a missing path from a permission
error and returns the empty result list instead of propagating the
exception. -/
theorem c9_root_errors :
    ∀ (fs : FS) (path : String) (hid : Bool) (M : Nat) (ext : Option String)
      (mi : Option Int) (nm : Option String),
      (fs.listdir path = Except.error ListErr.fileNotFound →
        explore_directory fs path hid M ext mi nm =
          (["❌ Invalid path: Directory does not exist."], [])) ∧
      (fs.listdir path = Except.error ListErr.permissionError →
        explore_directory fs path hid M ext mi nm = (["❌ Permission denied."], [])) ∧
      ("❌ Invalid path: Directory does not exist." ≠ "❌ Permission denied.") := by
  intro fs path hid M ext mi nm
  refine ⟨fun h => ?_, fun h => ?_, by decide⟩ <;>
    · unfold explore_directory
      rw [h]

/-- Witness for C9 on a missing root. -/
theorem c9_root_errors_witness :
    explore_directory fsMissing "nope" false 5000 none none none =
      (["❌ Invalid path: Directory does not exist."], []) :=
  (c9_root_errors fsMissing "nope" false 5000 none none none).1 rfl

/-! ## Claim C10 -/

/-- Claim C10, confirmed: each result record consists of exactly the eight
fields `name, path, is_file, is_dir, is_link, size_bytes, modified, level`
(two entries are equal exactly when all eight fields agree, and `level` is a
natural number); every entry of the non-recursive scan has level 0; and in
each recursive visit the directory's own entry carries the visit level while
every file entry carries that level plus one. -/
theorem c10_entry_shape :
    (∀ (fs : FS) (path : String) (hid : Bool) (M : Nat) (ext : Option String)
       (mi : Option Int) (nm : Option String) (e : Entry),
       e ∈ (explore_directory fs path hid M ext mi nm).2 → e.level = 0) ∧
    (∀ (fs : FS) (hid : Bool) (M : Nat) (depth : Option Nat) (ext : Option String)
       (mi : Option Int) (nm : Option String) (path root : String)
       (subdirs : List (String × FSTree)) (files : List String) (e : Entry),
       e ∈ (visitDir fs hid M depth ext mi nm path root subdirs files).entries →
       ((e.path = root ∧
          e.level = (visitDir fs hid M depth ext mi nm path root subdirs files).level) ∨
        e.level = (visitDir fs hid M depth ext mi nm path root subdirs files).level + 1)) ∧
    (∀ e1 e2 : Entry, e1 = e2 ↔
      (e1.name = e2.name ∧ e1.path = e2.path ∧ e1.is_file = e2.is_file ∧
       e1.is_dir = e2.is_dir ∧ e1.is_link = e2.is_link ∧
       e1.size_bytes = e2.size_bytes ∧ e1.modified = e2.modified ∧
       e1.level = e2.level)) := by
  refine ⟨?_, ?_, ?_⟩
  · intro fs path hid M ext mi nm e he
    unfold explore_directory at he
    rcases h : fs.listdir path with err | items0
    · rw [h] at he
      rcases err <;> simp at he
    · rw [h] at he
      simp only [List.mem_filterMap] at he
      obtain ⟨item, _, hpi⟩ := he
      unfold processItem at hpi
      rcases hm : format_metadata fs (pathJoin path item) with _ | m
      · rw [hm] at hpi
        simp at hpi
      · rw [hm] at hpi
        by_cases hf : apply_filters m ext mi nm
        · simp only [hf, if_true, Option.some.injEq] at hpi
          subst hpi
          rfl
        · simp [hf] at hpi
  · intro fs hid M depth ext mi nm path root subdirs files e he
    have hbody : ∀ lvl : Nat,
        e ∈ (visitBody fs hid M ext mi nm lvl root subdirs files).entries →
        (e.path = root ∧ e.level = lvl) ∨ e.level = lvl + 1 := by
      intro lvl hee
      rcases visitBody_mem_entries fs hid M ext mi nm lvl root subdirs files e hee with
        ⟨m, hm, hem⟩ | ⟨fname, m, _, _, _, hem⟩
      · obtain ⟨hp, _⟩ := format_metadata_fields fs root m hm
        exact Or.inl ⟨by rw [hem]; exact hp, by rw [hem]; rfl⟩
      · exact Or.inr (by rw [hem]; rfl)
    unfold visitDir at he ⊢
    rcases depth with _ | d
    · simp only [Bool.false_eq_true, if_false] at he ⊢
      exact hbody _ he
    · rcases hsk : decide (pyLevel root path > d) with _ | _
      · simp only [hsk, Bool.false_eq_true, if_false] at he ⊢
        exact hbody _ he
      · simp only [hsk, if_true] at he ⊢
        simp at he
  · intro e1 e2
    constructor
    · intro h
      subst h
      exact ⟨rfl, rfl, rfl, rfl, rfl, rfl, rfl, rfl⟩
    · rcases e1 with ⟨n1, p1, f1, d1, l1, s1, m1, v1⟩
      rcases e2 with ⟨n2, p2, f2, d2, l2, s2, m2, v2⟩
      intro ⟨h1, h2, h3, h4, h5, h6, h7, h8⟩
      simp_all

/-- Witness for C10: a concrete non-recursive entry has level 0. -/
theorem c10_entry_shape_witness :
    (⟨"a.txt", "p/a.txt", true, false, false, 10, "t", 0⟩ : Entry).level = 0 :=
  c10_entry_shape.1 fsAllFile "p" false 5000 none none none _ (by decide)
